import Mathlib

/-!
Verification of the core of `backup.py` (class `BackupManager`), a tool that
archives a target file or directory into a timestamped zip file, with an
allow/deny substring path filter, a JSON config cache, and an auto-clean
retention pass over dated backups.

The Python code is shallowly embedded below.  Paths and file names are
strings (compared as their character lists, matching Python's code-point
comparison); sets of patterns are lists with membership-based insertion;
the filesystem effects of `compress` are reified as an explicit effect
trace; fallible code (`int(...)`, `datetime(...)` raising `ValueError`)
is modelled with `Except`.
-/

namespace Backup

/-- Python's substring test `pat in s`, on character lists. -/
def containsSub (pat : List Char) : List Char → Bool
  | [] => pat.isEmpty
  | c :: rest => pat.isPrefixOf (c :: rest) || containsSub pat rest

/-- `any(pattern in path for pattern in pats)` over a pattern set
(modelled as a list; `any` only depends on membership). -/
def anyPat (pats : List String) (p : String) : Bool :=
  pats.any fun pat => containsSub pat.data p.data

/-- `DEFAULT_DENYLIST = {'__pycache__', '.vscode', '.zip'}` (backup.py line 17). -/
def DEFAULT_DENYLIST : List String := ["__pycache__", ".vscode", ".zip"]

/-- `set.add` / one step of `set.update`: membership-based insertion. -/
def addPat (s : List String) (p : String) : List String :=
  if p ∈ s then s else s ++ [p]

/-- `set.update(patterns)` as used by `BackupManager.include` / `exclude`. -/
def updatePats (s : List String) (ps : List String) : List String :=
  ps.foldl addPat s

/-- `BackupManager.isValid` (backup.py lines 166-170):
the evaluated path gets a trailing separator when it denotes a directory;
result is an allow-pattern match, and if there is none, the absence of any
deny-pattern match. -/
def isValid (allow deny : List String) (path : String) (isDir : Bool) : Bool :=
  let p := if isDir then path ++ "/" else path
  let res := anyPat allow p
  if res then res else !anyPat deny p

/-- A directory tree: the enumerator's input.  `dir` children are kept in
the (arbitrary) order the filesystem reports them, i.e. `iterdir` order. -/
inductive FsTree where
  | file (nm : String)
  | dir (nm : String) (children : List FsTree)

/-- `path.name`: base name of a node. -/
def FsTree.name : FsTree → String
  | .file n => n
  | .dir n _ => n

/-- `path.is_file()`. -/
def FsTree.isFile : FsTree → Bool
  | .file _ => true
  | .dir _ _ => false

/-- Python string comparison: lexicographic on code points. -/
def charsLe : List Char → List Char → Bool
  | [], _ => true
  | _ :: _, [] => false
  | a :: as, b :: bs =>
    if a.toNat < b.toNat then true
    else if b.toNat < a.toNat then false
    else charsLe as bs

/-- Comparison key of `sorted(..., key=lambda x: x.name)`. -/
def nameLe (a b : FsTree) : Bool := charsLe a.name.data b.name.data

/-- `sorted(nodes, key=lambda x: x.name)`: a stable sort by name
(insertion sort computes exactly the stable result). -/
def sortByName (l : List FsTree) : List FsTree :=
  l.insertionSort fun a b => nameLe a b = true

/-- `parent = Path(path.name)` resp. `parent = parent/path.name`:
the accumulated archive-relative path. -/
def parentJoin : Option String → String → String
  | none, n => n
  | some par, n => par ++ "/" ++ n

/-- `BackupManager.__namelist` (backup.py lines 196-220): prune the whole
subtree when `isValid` fails; a file yields one pair; a directory yields its
own entry (both paths suffixed with a separator), then the files sorted by
name, then the subdirectories sorted by name, each recursively.
`src` is `str(path)` of the visited node. -/
def namelist (allow deny : List String) (src : String) (par : Option String) :
    FsTree → List (String × String)
  | .file n =>
    if isValid allow deny src false then [(src, parentJoin par n)] else []
  | .dir n cs =>
    if isValid allow deny src true then
      let p := parentJoin par n
      (src ++ "/", p ++ "/") ::
      ((sortByName (cs.filter FsTree.isFile)).attach.flatMap fun c =>
         namelist allow deny (src ++ "/" ++ c.1.name) (some p) c.1) ++
      ((sortByName (cs.filter fun c => !c.isFile)).attach.flatMap fun c =>
         namelist allow deny (src ++ "/" ++ c.1.name) (some p) c.1)
    else []
termination_by t => sizeOf t
decreasing_by
  all_goals
    rename_i cs _hval
    have h1 : c.1 ∈ cs := by
      have h2 := (List.mem_insertionSort _).1 c.2
      exact (List.mem_filter.1 h2).1
    have h3 : sizeOf c.1 < sizeOf cs := List.sizeOf_lt_of_mem h1
    simp only [FsTree.dir.sizeOf_spec]
    omega

/-- A calendar date, the payload of a Python `datetime` built from
year/month/day only. -/
structure Date where
  year : Nat
  month : Nat
  day : Nat
deriving DecidableEq

/-- Gregorian leap-year rule, as used by `datetime`. -/
def isLeap (y : Nat) : Bool :=
  y % 4 == 0 && (y % 100 != 0 || y % 400 == 0)

/-- Number of days of a month, as validated by `datetime`. -/
def daysInMonth (y m : Nat) : Nat :=
  if m = 2 then (if isLeap y then 29 else 28)
  else if m = 4 ∨ m = 6 ∨ m = 9 ∨ m = 11 then 30
  else 31

/-- `datetime(year=y, month=m, day=d)`: `none` models the `ValueError`
raised on an out-of-range component. -/
def mkDatetime (y m d : Nat) : Option Date :=
  if 1 ≤ y ∧ y ≤ 9999 ∧ 1 ≤ m ∧ m ≤ 12 ∧ 1 ≤ d ∧ d ≤ daysInMonth y m then
    some ⟨y, m, d⟩
  else none

/-- Value of a digit string. -/
def digitsVal (cs : List Char) : Nat :=
  cs.foldl (fun acc c => acc * 10 + (c.toNat - 48)) 0

/-- Python `int(s)` on the dash-free pieces produced by `split('-')`:
succeeds on a non-empty all-digit string, raises `ValueError` (here:
`none`) otherwise. -/
def pyInt (s : String) : Option Nat :=
  if s.data ≠ [] ∧ s.data.all Char.isDigit then some (digitsVal s.data) else none

/-- Python `str.split('-')`. -/
def splitDash : List Char → List (List Char)
  | [] => [[]]
  | c :: rest =>
    let r := splitDash rest
    if c = '-' then [] :: r
    else
      match r with
      | [] => [[c]]
      | h :: t => (c :: h) :: t

/-- Python slice `name[:10]`. -/
def nameDatePart (nm : String) : List Char := nm.data.take 10

/-- Python slice `name[11:-4]`, the "name remainder" of a dated archive. -/
def nameRemainder (nm : String) : String :=
  ⟨(nm.data.drop 11).take (nm.data.length - 15)⟩

/-- Index of the last `'.'` of a name, if any. -/
def lastDotIdx : List Char → Option Nat
  | [] => none
  | c :: rest =>
    match lastDotIdx rest with
    | some i => some (i + 1)
    | none => if c = '.' then some 0 else none

/-- `pathlib.PurePath.suffix`: the final extension, empty when the only
dot is leading or trailing. -/
def pySuffix (nm : String) : String :=
  match lastDotIdx nm.data with
  | some i => if 0 < i ∧ i + 1 < nm.data.length then ⟨nm.data.drop i⟩ else ""
  | none => ""

/-- `pathlib.PurePath.stem`: the name with its suffix removed. -/
def pyStem (nm : String) : String :=
  ⟨nm.data.take (nm.data.length - (pySuffix nm).data.length)⟩

/-- An immediate entry of the destination directory, as seen by
`Path.iterdir`. -/
structure DirEntry where
  name : String
  isDir : Bool
deriving DecidableEq

/-- One iteration of the loop of `BackupManager.__find_files`
(backup.py lines 235-246): directories and non-`.zip` files are skipped;
a first-10-chars slice that does not split into three dash-parts is
skipped; then `int` and `datetime` may raise (modelled as `.error`); the
entry is selected when its name remainder equals `targetRem`. -/
def classify (targetRem : String) (e : DirEntry) : Except String (Option (DirEntry × Date)) :=
  if e.isDir || pySuffix e.name ≠ ".zip" then .ok none
  else
    match splitDash (nameDatePart e.name) with
    | [ys, ms, ds] =>
      match pyInt ⟨ys⟩, pyInt ⟨ms⟩, pyInt ⟨ds⟩ with
      | some y, some m, some d =>
        match mkDatetime y m d with
        | some date =>
          if nameRemainder e.name = targetRem then .ok (some (e, date)) else .ok none
        | none => .error "ValueError: datetime"
      | _, _, _ => .error "ValueError: int"
    | _ => .ok none

/-- `BackupManager.__find_files` (backup.py lines 232-246): scan the
destination entries in order for historical backups whose name remainder
equals `arcname[11:-4]`; a `ValueError` aborts the scan. -/
def findFiles (arcname : String) : List DirEntry → Except String (List (DirEntry × Date))
  | [] => .ok []
  | e :: rest =>
    match classify (nameRemainder arcname) e with
    | .error msg => .error msg
    | .ok r =>
      match findFiles arcname rest with
      | .error msg => .error msg
      | .ok others => .ok (r.toList ++ others)

/-- Chronological sort key of a date; for `datetime`-validated dates
(month ≤ 12, day ≤ 31) it orders exactly like Python's `datetime`
comparison. -/
def dateKey (d : Date) : Nat := d.year * 10000 + d.month * 100 + d.day

/-- Component bounds every `datetime`-constructed date satisfies. -/
def validDate (d : Date) : Prop :=
  1 ≤ d.month ∧ d.month ≤ 12 ∧ 1 ≤ d.day ∧ d.day ≤ 31

/-- The SPEC's notion "chronologically strictly before the current
(year, month)" (stated from the spec's words, for comparison with the
code's candidate test). -/
def ymBefore (a b : Date) : Prop :=
  a.year < b.year ∨ (a.year = b.year ∧ a.month < b.month)

instance (a b : Date) : Decidable (ymBefore a b) := by
  unfold ymBefore; infer_instance

/-- `date.month == res.month and date.year == res.year` (backup.py line 270). -/
def ymEq (a b : Date) : Bool := a.month == b.month && a.year == b.year

/-- The retention candidate test
`date.year < today.year or date.month < today.month` (backup.py line 259). -/
def isCandidate (today d : Date) : Bool :=
  decide (d.year < today.year) || decide (d.month < today.month)

/-- `files.sort(key=lambda x: x[1], reverse=True)`: stable sort by date,
newest first (insertion sort computes exactly the stable result). -/
def sortByDate (l : List (DirEntry × Date)) : List (DirEntry × Date) :=
  l.insertionSort fun a b => dateKey b.2 ≤ dateKey a.2

/-- The deletion loop of `BackupManager.__auto_clean`
(backup.py lines 269-273): walk the remaining sorted entries with the
reference date `res` of the previous entry; delete an entry whose
(month, year) equals the reference's; the reference always becomes the
current entry's date. -/
def walkDel (res : Date) : List (DirEntry × Date) → List (DirEntry × Date)
  | [] => []
  | (e, d) :: rest => (if ymEq d res then [(e, d)] else []) ++ walkDel d rest

/-- The entries NOT deleted by the loop of `__auto_clean`; complement of
`walkDel`, used in proofs. -/
def walkKeep (res : Date) : List (DirEntry × Date) → List (DirEntry × Date)
  | [] => []
  | (e, d) :: rest => (if ymEq d res then [] else [(e, d)]) ++ walkKeep d rest

/-- The set of files `BackupManager.__auto_clean` (backup.py lines
248-274) unlinks, in deletion order: find the matching backups, keep the
candidates (`year < today.year or month < today.month`), do nothing when
fewer than two, else sort newest-first and run the deletion walk. -/
def autoCleanDeleted (today : Date) (arcname : String) (entries : List DirEntry) :
    Except String (List (DirEntry × Date)) :=
  match findFiles arcname entries with
  | .error msg => .error msg
  | .ok all =>
    let files := all.filter fun p => isCandidate today p.2
    if files.length < 2 then .ok []
    else
      match sortByDate files with
      | [] => .ok []
      | r :: l => .ok (walkDel r.2 l)

/-- `BackupManager.__auto_clean` as a transformer of the destination
directory state: returns the deleted entries and the entries remaining
after the unlinks.  Dateless mode is a no-op (backup.py lines 251-252). -/
def autoCleanRun (dateless : Bool) (today : Date) (arcname : String)
    (entries : List DirEntry) :
    Except String (List (DirEntry × Date) × List DirEntry) :=
  if dateless then .ok ([], entries)
  else
    match autoCleanDeleted today arcname entries with
    | .error msg => .error msg
    | .ok del =>
      .ok (del, entries.filter fun e => !((del.map fun p => p.1.name).contains e.name))

/-- `sorted(strings)`: stable sort by code points, used by the `info`
property on the allow/deny sets. -/
def sortStr (l : List String) : List String :=
  l.insertionSort fun a b => charsLe a.data b.data = true

/-- The persisted JSON config record `{destination}/cache/{name}.json`:
`allowlist`, `denylist`, plus the extra scalar settings bag.  The only
public session attribute of the source is `auto_clean`, so the bag has
exactly that key; `none` models a record without an `auto_clean` key. -/
structure ConfigRecord where
  allowlist : List String
  denylist : List String
  auto_clean : Option Bool
deriving DecidableEq

/-- The in-memory session state of a `BackupManager` relevant to the
claims: filter sets, flags, and the computed archive name. -/
structure Session where
  allow : List String
  deny : List String
  auto_clean : Bool
  required_config : Bool
  dateless : Bool
  preview : Bool
  arcname : String
deriving DecidableEq

/-- Zero-padded decimal rendering (`strftime` field widths 2 and 4). -/
def pad (w n : Nat) : String :=
  let s := toString n
  ⟨List.replicate (w - s.data.length) '0' ++ s.data⟩

/-- `today.strftime("%Y-%m-%d")`. -/
def dateFmt (d : Date) : String :=
  pad 4 d.year ++ "-" ++ pad 2 d.month ++ "-" ++ pad 2 d.day

/-- The `info` property (backup.py lines 132-147): sorted allow/deny
lists plus every public attribute — here `auto_clean`. -/
def sessionInfo (s : Session) : ConfigRecord :=
  { allowlist := sortStr s.allow
    denylist := sortStr s.deny
    auto_clean := some s.auto_clean }

/-- `BackupManager.__init__` (backup.py lines 33-107).  `cache` is the
parsed content of `{save}/cache/{arcname}.json` when that file exists.
When `required_config` holds and the record exists, the denylist is reset
to empty and the record's allow/deny entries are inserted, and the extra
keys of the record are copied onto the session (overwriting the
`auto_clean` argument when the key is present); otherwise the denylist is
a copy of `DEFAULT_DENYLIST`. -/
def initSession (targetName : String) (targetIsFile : Bool) (arcArg : Option String)
    (auto_clean required_config dateless preview : Bool) (today : Date)
    (cache : Option ConfigRecord) : Session :=
  let base :=
    match arcArg with
    | none => if targetIsFile then pyStem targetName else targetName
    | some a =>
      if ".zip".data.isSuffixOf a.data then ⟨a.data.take (a.data.length - 4)⟩ else a
  let arcname :=
    if dateless then base ++ ".zip" else dateFmt today ++ "-" ++ base ++ ".zip"
  match required_config, cache with
  | true, some r =>
    { allow := updatePats [] r.allowlist
      deny := updatePats [] r.denylist
      auto_clean := r.auto_clean.getD auto_clean
      required_config := required_config
      dateless := dateless
      preview := preview
      arcname := arcname }
  | _, _ =>
    { allow := []
      deny := DEFAULT_DENYLIST
      auto_clean := auto_clean
      required_config := required_config
      dateless := dateless
      preview := preview
      arcname := arcname }

/-- A filesystem effect of `compress` under the destination directory. -/
inductive Effect where
  | createCacheFile (record : ConfigRecord)
  | writeCacheFile (record : ConfigRecord)
  | createTempFile
  | publishArchive (arcname : String)
  | deleteFile (nm : String)
deriving DecidableEq

/-- `BackupManager.compress` (backup.py lines 280-340) as its trace of
filesystem effects under the destination directory, paired with the
`ValueError` that aborts the run, if any.  Config gate first (lines
285-290); then the temp file is created (line 295); the preview branch
returns right after (lines 298-302); otherwise the archive is streamed
and published (lines 304-331) and, when `auto_clean` is set, the
retention pass deletes old backups (lines 337-338). -/
def compress (s : Session) (cacheExists : Bool) (today : Date)
    (dest : List DirEntry) : List Effect × Option String :=
  if s.required_config && !cacheExists then
    ([.createCacheFile (sessionInfo s)], none)
  else
    let pre := (if s.required_config then [Effect.writeCacheFile (sessionInfo s)] else [])
      ++ [Effect.createTempFile]
    if s.preview then (pre, none)
    else
      let base := pre ++ [Effect.publishArchive s.arcname]
      if s.auto_clean then
        match autoCleanRun s.dateless today s.arcname dest with
        | .ok (del, _) => (base ++ del.map fun p => Effect.deleteFile p.1.name, none)
        | .error e => (base, some e)
      else (base, none)

/-! ### Generic helper lemmas -/

theorem charsLe_total : ∀ as bs : List Char, charsLe as bs = true ∨ charsLe bs as = true
  | [], _ => Or.inl rfl
  | _ :: _, [] => Or.inr rfl
  | a :: as, b :: bs => by
    simp only [charsLe]
    rcases Nat.lt_trichotomy a.toNat b.toNat with h | h | h
    · simp [h]
    · simp only [h, Nat.lt_irrefl, if_false]
      exact charsLe_total as bs
    · simp [h, Nat.lt_asymm h]

theorem charsLe_trans : ∀ as bs cs : List Char,
    charsLe as bs = true → charsLe bs cs = true → charsLe as cs = true
  | [], _, _, _, _ => rfl
  | _ :: _, [], _, h, _ => by simp [charsLe] at h
  | _ :: _, _ :: _, [], _, h => by simp [charsLe] at h
  | a :: as, b :: bs, c :: cs, h1, h2 => by
    simp only [charsLe] at h1 h2 ⊢
    by_cases hab : a.toNat < b.toNat
    · by_cases hbc : b.toNat < c.toNat
      · have h3 : a.toNat < c.toNat := Nat.lt_trans hab hbc
        simp [h3]
      · by_cases hcb : c.toNat < b.toNat
        · simp [hbc, hcb] at h2
        · have h3 : a.toNat < c.toNat := by omega
          simp [h3]
    · by_cases hba : b.toNat < a.toNat
      · simp [hab, hba] at h1
      · by_cases hbc : b.toNat < c.toNat
        · have h3 : a.toNat < c.toNat := by omega
          simp [h3]
        · by_cases hcb : c.toNat < b.toNat
          · simp [hbc, hcb] at h2
          · have h3 : ¬ a.toNat < c.toNat := by omega
            have h4 : ¬ c.toNat < a.toNat := by omega
            simp only [hab, hba, if_false, if_neg] at h1
            simp only [hbc, hcb, if_false, if_neg] at h2
            simp only [h3, h4, if_false, if_neg]
            exact charsLe_trans as bs cs h1 h2

theorem nameLe_total (a b : FsTree) : nameLe a b = true ∨ nameLe b a = true :=
  charsLe_total _ _

theorem nameLe_trans {a b c : FsTree} (h1 : nameLe a b = true) (h2 : nameLe b c = true) :
    nameLe a c = true :=
  charsLe_trans _ _ _ h1 h2

theorem sortByName_perm (l : List FsTree) : List.Perm (sortByName l) l :=
  List.perm_insertionSort _ l

theorem sortByName_sorted (l : List FsTree) :
    List.Pairwise (fun a b => nameLe a b = true) (sortByName l) := by
  haveI : IsTotal FsTree (fun a b => nameLe a b = true) := ⟨nameLe_total⟩
  haveI : IsTrans FsTree (fun a b => nameLe a b = true) := ⟨fun _ _ _ => nameLe_trans⟩
  exact List.sorted_insertionSort _ l

theorem sortByDate_perm (l : List (DirEntry × Date)) : List.Perm (sortByDate l) l :=
  List.perm_insertionSort _ l

theorem sortByDate_sorted (l : List (DirEntry × Date)) :
    List.Pairwise (fun a b => dateKey b.2 ≤ dateKey a.2) (sortByDate l) := by
  haveI : IsTotal (DirEntry × Date) (fun a b => dateKey b.2 ≤ dateKey a.2) := by
    constructor
    intro a b
    exact Nat.le_total (dateKey b.2) (dateKey a.2)
  haveI : IsTrans (DirEntry × Date) (fun a b => dateKey b.2 ≤ dateKey a.2) := by
    constructor
    intro a b c h1 h2
    exact Nat.le_trans h2 h1
  exact List.sorted_insertionSort _ l

theorem attach_flatMap_eq {α β : Type} (l : List α) (f : α → List β) :
    (l.attach.flatMap fun c => f c.1) = l.flatMap f := by
  have h1 : l.attach.map Subtype.val = l := by
    simp
  calc l.attach.flatMap (fun c => f c.1)
      = (l.attach.map Subtype.val).flatMap f := (List.flatMap_map _ _ _).symm
    _ = l.flatMap f := by rw [h1]

/-! ### Date and classification lemmas -/

theorem ymEq_iff (a b : Date) :
    ymEq a b = true ↔ (a.month = b.month ∧ a.year = b.year) := by
  simp [ymEq]

theorem ymEq_false_iff (a b : Date) :
    ymEq a b = false ↔ ¬ (a.month = b.month ∧ a.year = b.year) := by
  rw [← Bool.not_eq_true, ymEq_iff]

theorem ymEq_comm (a b : Date) : ymEq a b = ymEq b a := by
  cases h : ymEq b a
  · rw [ymEq_false_iff] at h ⊢
    intro hx
    exact h ⟨hx.1.symm, hx.2.symm⟩
  · rw [ymEq_iff] at h ⊢
    exact ⟨h.1.symm, h.2.symm⟩

theorem daysInMonth_le (y m : Nat) : daysInMonth y m ≤ 31 := by
  unfold daysInMonth
  split_ifs <;> omega

theorem mkDatetime_valid {y m d : Nat} {dt : Date} (h : mkDatetime y m d = some dt) :
    validDate dt := by
  unfold mkDatetime at h
  split_ifs at h with hb
  have hd := daysInMonth_le y m
  cases h
  exact ⟨hb.2.2.1, hb.2.2.2.1, hb.2.2.2.2.1, le_trans hb.2.2.2.2.2 hd⟩

theorem classify_ok {t : String} {e : DirEntry} {p : DirEntry × Date}
    (h : classify t e = .ok (some p)) : p.1 = e ∧ validDate p.2 := by
  unfold classify at h
  split at h
  · simp at h
  · split at h
    · split at h
      · split at h
        · rename_i date hdt
          split_ifs at h
          · simp only [Except.ok.injEq, Option.some.injEq] at h
            subst h
            exact ⟨rfl, mkDatetime_valid hdt⟩
          · simp at h
        · simp at h
      · simp at h
    · simp at h

theorem ym_squeeze {a b c : Date} (ha : validDate a) (hb : validDate b) (hc : validDate c)
    (k1 : dateKey b ≤ dateKey a) (k2 : dateKey c ≤ dateKey b)
    (h : c.month = a.month ∧ c.year = a.year) :
    b.month = a.month ∧ b.year = a.year := by
  unfold validDate dateKey at *
  omega

/-! ### findFiles lemmas -/

theorem findFiles_sound {arc : String} :
    ∀ {s : List DirEntry} {l : List (DirEntry × Date)},
      findFiles arc s = .ok l → ∀ p ∈ l, p.1 ∈ s ∧ validDate p.2 := by
  intro s
  induction s with
  | nil =>
    intro l h p hp
    simp only [findFiles, Except.ok.injEq] at h
    subst h
    simp at hp
  | cons e rest ih =>
    intro l h p hp
    rw [findFiles] at h
    cases hc : classify (nameRemainder arc) e with
    | error msg => rw [hc] at h; simp at h
    | ok r =>
      rw [hc] at h
      cases hf : findFiles arc rest with
      | error msg => rw [hf] at h; simp at h
      | ok others =>
        rw [hf] at h
        simp only [Except.ok.injEq] at h
        subst h
        rcases List.mem_append.1 hp with hmem | hmem
        · cases r with
          | none => simp [Option.toList] at hmem
          | some q =>
            simp only [Option.toList, List.mem_singleton] at hmem
            subst hmem
            have hq := classify_ok hc
            exact ⟨hq.1 ▸ List.mem_cons_self e rest, hq.2⟩
        · have hr := ih hf p hmem
          exact ⟨List.mem_cons_of_mem _ hr.1, hr.2⟩

theorem findFiles_fst_sublist {arc : String} :
    ∀ {s : List DirEntry} {l : List (DirEntry × Date)},
      findFiles arc s = .ok l → List.Sublist (l.map fun p => p.1) s := by
  intro s
  induction s with
  | nil =>
    intro l h
    simp only [findFiles, Except.ok.injEq] at h
    subst h
    simp
  | cons e rest ih =>
    intro l h
    rw [findFiles] at h
    cases hc : classify (nameRemainder arc) e with
    | error msg => rw [hc] at h; simp at h
    | ok r =>
      rw [hc] at h
      cases hf : findFiles arc rest with
      | error msg => rw [hf] at h; simp at h
      | ok others =>
        rw [hf] at h
        simp only [Except.ok.injEq] at h
        subst h
        cases r with
        | none =>
          simp only [Option.toList, List.nil_append]
          exact (ih hf).cons e
        | some q =>
          simp only [Option.toList, List.singleton_append, List.map_cons]
          rw [(classify_ok hc).1]
          exact (ih hf).cons₂ e

theorem findFiles_filter {arc : String} (q : DirEntry → Bool) :
    ∀ {s : List DirEntry} {l : List (DirEntry × Date)},
      findFiles arc s = .ok l →
      findFiles arc (s.filter q) = .ok (l.filter fun p => q p.1) := by
  intro s
  induction s with
  | nil =>
    intro l h
    simp only [findFiles, Except.ok.injEq] at h
    subst h
    simp [findFiles]
  | cons e rest ih =>
    intro l h
    rw [findFiles] at h
    cases hc : classify (nameRemainder arc) e with
    | error msg => rw [hc] at h; simp at h
    | ok r =>
      rw [hc] at h
      cases hf : findFiles arc rest with
      | error msg => rw [hf] at h; simp at h
      | ok others =>
        rw [hf] at h
        simp only [Except.ok.injEq] at h
        subst h
        rw [List.filter_append]
        cases hq : q e with
        | true =>
          simp only [List.filter_cons, hq, if_true]
          rw [findFiles, hc, ih hf]
          cases r with
          | none => simp [Option.toList]
          | some p =>
            simp only [Option.toList]
            have he := (classify_ok hc).1
            simp [List.filter_cons, he, hq]
        | false =>
          simp only [List.filter_cons, hq, Bool.false_eq_true, if_false]
          rw [ih hf]
          cases r with
          | none => simp [Option.toList]
          | some p =>
            simp only [Option.toList]
            have he := (classify_ok hc).1
            simp [List.filter_cons, he, hq]

/-! ### Deletion-walk lemmas -/

theorem walkDel_sub :
    ∀ (res : Date) (l : List (DirEntry × Date)), ∀ p ∈ walkDel res l, p ∈ l
  | _, [], p, hp => by simp [walkDel] at hp
  | res, (e, d) :: rest, p, hp => by
    simp only [walkDel] at hp
    rcases List.mem_append.1 hp with h | h
    · split_ifs at h
      · simp only [List.mem_singleton] at h
        subst h
        exact List.mem_cons_self _ _
      · simp at h
    · exact List.mem_cons_of_mem _ (walkDel_sub d rest p h)

theorem walkKeep_sub :
    ∀ (res : Date) (l : List (DirEntry × Date)), ∀ p ∈ walkKeep res l, p ∈ l
  | _, [], p, hp => by simp [walkKeep] at hp
  | res, (e, d) :: rest, p, hp => by
    simp only [walkKeep] at hp
    rcases List.mem_append.1 hp with h | h
    · split_ifs at h
      · simp at h
      · simp only [List.mem_singleton] at h
        subst h
        exact List.mem_cons_self _ _
    · exact List.mem_cons_of_mem _ (walkKeep_sub d rest p h)

theorem walk_partition :
    ∀ (res : Date) (l : List (DirEntry × Date)),
      List.Perm l (walkKeep res l ++ walkDel res l)
  | _, [] => List.Perm.refl _
  | res, (e, d) :: rest => by
    have ih := walk_partition d rest
    simp only [walkKeep, walkDel]
    by_cases hc : ymEq d res = true
    · rw [if_pos hc, if_pos hc]
      simp only [List.nil_append, List.singleton_append]
      exact (ih.cons _).trans List.perm_middle.symm
    · rw [if_neg hc, if_neg hc]
      simp only [List.singleton_append, List.nil_append, List.cons_append]
      exact ih.cons _

theorem walkDel_eq_nil :
    ∀ (res : Date) (l : List (DirEntry × Date)),
      (∀ p ∈ l, ymEq p.2 res = false) →
      List.Pairwise (fun a b => ymEq b.2 a.2 = false) l →
      walkDel res l = []
  | _, [], _, _ => rfl
  | res, (e, d) :: rest, h1, h2 => by
    simp only [walkDel]
    have hd : ymEq d res = false := h1 (e, d) (List.mem_cons_self _ _)
    rcases List.pairwise_cons.1 h2 with ⟨hh, ht⟩
    rw [hd]
    simp only [Bool.false_eq_true, if_false, List.nil_append]
    exact walkDel_eq_nil d rest (fun p hp => hh p hp) ht

theorem walkKeep_pairwise :
    ∀ (r : DirEntry × Date) (l : List (DirEntry × Date)),
      (∀ p ∈ r :: l, validDate p.2) →
      List.Pairwise (fun a b => dateKey b.2 ≤ dateKey a.2) (r :: l) →
      List.Pairwise (fun a b => ymEq b.2 a.2 = false) (r :: walkKeep r.2 l)
  | r, [], _, _ => by simp [walkKeep]
  | r, (be, bd) :: t, hv, hs => by
    have hvb : ∀ p ∈ (be, bd) :: t, validDate p.2 := fun p hp =>
      hv p (List.mem_cons_of_mem _ hp)
    rcases List.pairwise_cons.1 hs with ⟨hr1, hsb⟩
    have ih := walkKeep_pairwise (be, bd) t hvb hsb
    simp only [walkKeep]
    by_cases hc : ymEq bd r.2 = true
    · rw [if_pos hc]
      simp only [List.nil_append]
      refine List.pairwise_cons.2 ⟨?_, (List.pairwise_cons.1 ih).2⟩
      intro q hq
      have h1 := (List.pairwise_cons.1 ih).1 q hq
      rw [ymEq_false_iff] at h1 ⊢
      rw [ymEq_iff] at hc
      intro hx
      exact h1 ⟨hx.1.trans hc.1.symm, hx.2.trans hc.2.symm⟩
    · rw [if_neg hc]
      have hcf : ymEq bd r.2 = false := by
        revert hc
        cases ymEq bd r.2 <;> simp
      simp only [List.singleton_append]
      refine List.pairwise_cons.2 ⟨?_, ih⟩
      intro q hq
      rcases List.mem_cons.1 hq with rfl | hq'
      · exact hcf
      · by_contra hne
        have hqt : ymEq q.2 r.2 = true := by
          revert hne
          cases ymEq q.2 r.2 <;> simp
        have hq_t : q ∈ t := walkKeep_sub bd t q hq'
        have hkq : dateKey q.2 ≤ dateKey bd := (List.pairwise_cons.1 hsb).1 q hq_t
        have hsq := ym_squeeze (hv r (List.mem_cons_self _ _))
          (hv (be, bd) (List.mem_cons_of_mem _ (List.mem_cons_self _ _)))
          (hv q (List.mem_cons_of_mem _ (List.mem_cons_of_mem _ hq_t)))
          (hr1 (be, bd) (List.mem_cons_self _ _)) hkq ((ymEq_iff _ _).1 hqt)
        have hbt : ymEq bd r.2 = true := (ymEq_iff _ _).2 hsq
        rw [hcf] at hbt
        exact Bool.noConfusion hbt

theorem walkKeep_max :
    ∀ (r : DirEntry × Date) (l : List (DirEntry × Date)),
      (∀ p ∈ r :: l, validDate p.2) →
      List.Pairwise (fun a b => dateKey b.2 ≤ dateKey a.2) (r :: l) →
      ∀ p ∈ r :: walkKeep r.2 l, ∀ q ∈ r :: l,
        ymEq q.2 p.2 = true → dateKey q.2 ≤ dateKey p.2
  | r, [], _, _, p, hp, q, hq, _ => by
    simp [walkKeep] at hp hq
    rw [hp, hq]
  | r, (be, bd) :: t, hv, hs, p, hp, q, hq, hym => by
    have hvb : ∀ x ∈ (be, bd) :: t, validDate x.2 := fun x hx =>
      hv x (List.mem_cons_of_mem _ hx)
    rcases List.pairwise_cons.1 hs with ⟨hr1, hsb⟩
    simp only [walkKeep] at hp
    by_cases hc : ymEq bd r.2 = true
    · rw [if_pos hc] at hp
      simp only [List.nil_append] at hp
      rcases List.mem_cons.1 hp with hpr | hp'
      · rcases List.mem_cons.1 hq with hqr | hq'
        · rw [hpr, hqr]
        · rw [hpr]
          exact hr1 q hq'
      · rcases List.mem_cons.1 hq with hqr | hq'
        · exfalso
          rw [hqr] at hym
          have hkp := walkKeep_pairwise (be, bd) t hvb hsb
          have h1 : ymEq p.2 bd = false := (List.pairwise_cons.1 hkp).1 p hp'
          rw [ymEq_false_iff] at h1
          rw [ymEq_iff] at hym hc
          exact h1 ⟨hym.1.symm.trans hc.1.symm, hym.2.symm.trans hc.2.symm⟩
        · exact walkKeep_max (be, bd) t hvb hsb p (List.mem_cons_of_mem _ hp') q hq' hym
    · rw [if_neg hc] at hp
      have hcf : ymEq bd r.2 = false := by
        revert hc
        cases ymEq bd r.2 <;> simp
      simp only [List.singleton_append] at hp
      rcases List.mem_cons.1 hp with hpr | hp'
      · rcases List.mem_cons.1 hq with hqr | hq'
        · rw [hpr, hqr]
        · rw [hpr]
          exact hr1 q hq'
      · rcases List.mem_cons.1 hq with hqr | hq'
        · exfalso
          rw [hqr] at hym
          rcases List.mem_cons.1 hp' with hpb | hp''
          · rw [hpb] at hym
            rw [ymEq_false_iff] at hcf
            rw [ymEq_iff] at hym
            exact hcf ⟨hym.1.symm, hym.2.symm⟩
          · have hkp := walkKeep_pairwise (be, bd) t hvb hsb
            have h1 : ymEq p.2 bd = false := (List.pairwise_cons.1 hkp).1 p hp''
            have hp_t : p ∈ t := walkKeep_sub bd t p hp''
            have hkq : dateKey p.2 ≤ dateKey bd := (List.pairwise_cons.1 hsb).1 p hp_t
            have hpr2 := (ymEq_iff _ _).1 hym
            have hsq := ym_squeeze (hv r (List.mem_cons_self _ _))
              (hv (be, bd) (List.mem_cons_of_mem _ (List.mem_cons_self _ _)))
              (hv p (List.mem_cons_of_mem _ (List.mem_cons_of_mem _ hp_t)))
              (hr1 (be, bd) (List.mem_cons_self _ _)) hkq ⟨hpr2.1.symm, hpr2.2.symm⟩
            have hbt : ymEq bd r.2 = true := (ymEq_iff _ _).2 hsq
            rw [hcf] at hbt
            exact Bool.noConfusion hbt
        · exact walkKeep_max (be, bd) t hvb hsb p hp' q hq' hym

theorem walkDel_mem_later :
    ∀ (r : DirEntry × Date) (l : List (DirEntry × Date)),
      List.Pairwise (fun a b => dateKey b.2 ≤ dateKey a.2) (r :: l) →
      ((r :: l).map fun p => dateKey p.2).Nodup →
      ∀ p ∈ walkDel r.2 l,
        ∃ q ∈ r :: l, ymEq q.2 p.2 = true ∧ dateKey p.2 < dateKey q.2
  | _, [], _, _, p, hp => by simp [walkDel] at hp
  | r, (be, bd) :: t, hs, hn, p, hp => by
    rcases List.pairwise_cons.1 hs with ⟨hr1, hsb⟩
    have hn' := (List.nodup_cons.1 hn).2
    have hrk := (List.nodup_cons.1 hn).1
    simp only [walkDel] at hp
    rcases List.mem_append.1 hp with h | h
    · split_ifs at h with hc
      · simp only [List.mem_singleton] at h
        subst h
        refine ⟨r, List.mem_cons_self _ _, ?_, ?_⟩
        · rw [ymEq_comm]
          exact hc
        · have hle : dateKey bd ≤ dateKey r.2 := hr1 (be, bd) (List.mem_cons_self _ _)
          have hne : dateKey r.2 ≠ dateKey bd := by
            intro he
            have hmm : dateKey r.2 ∈ List.map (fun p => dateKey p.2) ((be, bd) :: t) := by
              rw [he]
              exact List.mem_map.2 ⟨(be, bd), List.mem_cons_self _ _, rfl⟩
            exact hrk hmm
          show dateKey bd < dateKey r.2
          omega
      · simp at h
    · obtain ⟨q, hq, h1, h2⟩ := walkDel_mem_later (be, bd) t hsb hn' p h
      exact ⟨q, List.mem_cons_of_mem _ hq, h1, h2⟩

theorem pairwise_eq_of_mem :
    ∀ (k : List (DirEntry × Date)),
      List.Pairwise (fun a b => ymEq b.2 a.2 = false) k →
      ∀ p ∈ k, ∀ q ∈ k, ymEq p.2 q.2 = true → p = q
  | [], _, p, hp, _, _, _ => absurd hp (by simp)
  | a :: t, hpw, p, hp, q, hq, hym => by
    rcases List.mem_cons.1 hp with rfl | hp' <;> rcases List.mem_cons.1 hq with rfl | hq'
    · rfl
    · exfalso
      have h1 := (List.pairwise_cons.1 hpw).1 q hq'
      rw [ymEq_comm] at hym
      rw [h1] at hym
      exact Bool.noConfusion hym
    · exfalso
      have h1 := (List.pairwise_cons.1 hpw).1 p hp'
      rw [h1] at hym
      exact Bool.noConfusion hym
    · exact pairwise_eq_of_mem t (List.pairwise_cons.1 hpw).2 p hp' q hq' hym

theorem pairwise_of_sub_nodup :
    ∀ (l k : List (DirEntry × Date)),
      (∀ p ∈ l, p ∈ k) →
      List.Pairwise (fun a b => ymEq b.2 a.2 = false) k →
      (l.map fun p => p.1.name).Nodup →
      List.Pairwise (fun a b => ymEq b.2 a.2 = false) l
  | [], _, _, _, _ => List.Pairwise.nil
  | p :: t, k, hsub, hpw, hnd => by
    refine List.pairwise_cons.2 ⟨?_, pairwise_of_sub_nodup t k
      (fun x hx => hsub x (List.mem_cons_of_mem _ hx)) hpw (List.nodup_cons.1 hnd).2⟩
    intro q hq
    by_contra hne
    have hym : ymEq q.2 p.2 = true := by
      revert hne
      cases ymEq q.2 p.2 <;> simp
    have heq : q = p := pairwise_eq_of_mem k hpw q (hsub q (List.mem_cons_of_mem _ hq)) p
      (hsub p (List.mem_cons_self _ _)) hym
    have hh := (List.nodup_cons.1 hnd).1
    exact hh (List.mem_map.2 ⟨q, hq, by rw [heq]⟩)

/-! ### Small shared lemmas for the claim proofs -/

theorem contains_iff_mem_str {l : List String} {a : String} :
    l.contains a = true ↔ a ∈ l := by
  simp

theorem mem_addPat {s : List String} {x p : String} :
    p ∈ addPat s x ↔ p ∈ s ∨ p = x := by
  unfold addPat
  split_ifs with h
  · constructor
    · exact Or.inl
    · intro hx
      rcases hx with h1 | h1
      · exact h1
      · rw [h1]
        exact h
  · simp

theorem mem_updatePats : ∀ (ps s : List String) (p : String),
    p ∈ updatePats s ps ↔ p ∈ s ∨ p ∈ ps
  | [], s, p => by simp [updatePats]
  | x :: t, s, p => by
    have h1 : updatePats s (x :: t) = updatePats (addPat s x) t := rfl
    rw [h1, mem_updatePats t (addPat s x) p, mem_addPat]
    simp only [List.mem_cons]
    constructor
    · intro h
      rcases h with (h | h) | h
      · exact Or.inl h
      · exact Or.inr (Or.inl h)
      · exact Or.inr (Or.inr h)
    · intro h
      rcases h with h | h | h
      · exact Or.inl (Or.inl h)
      · exact Or.inl (Or.inr h)
      · exact Or.inr h

/-! ### Claim C7 -/

/-- Claim C7: for every path and every pair of allow/deny pattern sets,
`isValid` returns true whenever the evaluated path string (with a trailing
separator appended for directories) contains any allow pattern as a
substring, irrespective of the deny set; when no allow pattern matches it
returns true exactly when no deny pattern is contained in the path
string. -/
theorem claimC7_allow_overrides_deny (allow deny : List String) (path : String) (isDir : Bool) :
    (anyPat allow (if isDir then path ++ "/" else path) = true →
      isValid allow deny path isDir = true) ∧
    (anyPat allow (if isDir then path ++ "/" else path) = false →
      (isValid allow deny path isDir = true ↔
        anyPat deny (if isDir then path ++ "/" else path) = false)) := by
  unfold isValid
  constructor
  · intro h
    simp [h]
  · intro h
    simp [h]

/-- Witness for C7 at concrete inputs: an allow match wins even when the
deny set matches the same path, and with no allow match the result is the
absence of a deny match. -/
theorem claimC7_witness :
    (anyPat ["keep"] "pro/keep/x" = true ∧
      isValid ["keep"] ["keep"] "pro/keep/x" false = true) ∧
    (anyPat ["keep"] "pro/other" = false ∧
      (isValid ["keep"] ["other"] "pro/other" false = true ↔
        anyPat ["other"] "pro/other" = false)) :=
  ⟨⟨by decide, (claimC7_allow_overrides_deny ["keep"] ["keep"] "pro/keep/x" false).1 (by decide)⟩,
   ⟨by decide, (claimC7_allow_overrides_deny ["keep"] ["other"] "pro/other" false).2 (by decide)⟩⟩

/-! ### Claim C6 -/

/-- Claim C6: if a directory fails the validity check then neither the
directory nor any of its descendants appears in the enumeration output —
whatever the children are, even ones whose own path would satisfy an
allow pattern; descent is gated solely by the directory's own validity. -/
theorem claimC6_denied_dir_prunes_subtree (allow deny : List String) (src : String)
    (par : Option String) (n : String) (cs : List FsTree)
    (h : isValid allow deny src true = false) :
    namelist allow deny src par (.dir n cs) = [] := by
  rw [namelist]
  simp [h]

/-- Witness for C6: the denied directory `/r/skip` contains a file whose
own path matches the allow pattern `keepme`, yet the whole subtree is
pruned. -/
theorem claimC6_witness :
    isValid ["keepme"] ["skip"] "/r/skip" true = false ∧
    isValid ["keepme"] ["skip"] "/r/skip/keepme" false = true ∧
    namelist ["keepme"] ["skip"] "/r/skip" none (.dir "skip" [.file "keepme"]) = [] :=
  ⟨by decide, by decide,
    claimC6_denied_dir_prunes_subtree ["keepme"] ["skip"] "/r/skip" none "skip"
      [.file "keepme"] (by decide)⟩

/-! ### Claim C5 -/

/-- Claim C5: a valid directory is enumerated as its own entry first (both
paths suffixed with a separator), then the files of the directory sorted
lexicographically by name (each recursively enumerated, so only valid
ones appear), then the subdirectories sorted lexicographically by name
(each recursively); the sort sections are sorted permutations of the
directory's files resp. subdirectories.  The enumerator is a pure
function of the tree, so re-running it on an unchanged tree yields the
identical sequence definitionally. -/
theorem claimC5_enumeration_order (allow deny : List String) (src : String)
    (par : Option String) (n : String) (cs : List FsTree) :
    namelist allow deny src par (.dir n cs) =
      (if isValid allow deny src true = true then
        (src ++ "/", parentJoin par n ++ "/") ::
        (((sortByName (cs.filter FsTree.isFile)).flatMap fun c =>
            namelist allow deny (src ++ "/" ++ c.name) (some (parentJoin par n)) c) ++
          ((sortByName (cs.filter fun c => !c.isFile)).flatMap fun c =>
            namelist allow deny (src ++ "/" ++ c.name) (some (parentJoin par n)) c))
      else []) ∧
    List.Pairwise (fun a b => nameLe a b = true) (sortByName (cs.filter FsTree.isFile)) ∧
    List.Pairwise (fun a b => nameLe a b = true) (sortByName (cs.filter fun c => !c.isFile)) ∧
    List.Perm (sortByName (cs.filter FsTree.isFile)) (cs.filter FsTree.isFile) ∧
    List.Perm (sortByName (cs.filter fun c => !c.isFile)) (cs.filter fun c => !c.isFile) := by
  refine ⟨?_, sortByName_sorted _, sortByName_sorted _, sortByName_perm _, sortByName_perm _⟩
  rw [namelist]
  by_cases h : isValid allow deny src true = true
  · rw [if_pos h, if_pos h]
    dsimp only
    have e1 : ∀ (l : List FsTree),
        (l.attach.flatMap fun c =>
          namelist allow deny (src ++ "/" ++ c.1.name) (some (parentJoin par n)) c.1) =
        l.flatMap fun c =>
          namelist allow deny (src ++ "/" ++ c.name) (some (parentJoin par n)) c :=
      fun l => attach_flatMap_eq l
        (fun c => namelist allow deny (src ++ "/" ++ c.name) (some (parentJoin par n)) c)
    rw [e1, e1]
    exact List.cons_append _ _ _
  · rw [if_neg h, if_neg h]

/-! ### Claim C4 -/

/-- Claim C4: with the require-config flag set and no existing config
cache file, `compress` persists exactly one new config record capturing
the current in-memory allow/deny/settings state and returns: no temp
file, no archive publication, no deletion, no error. -/
theorem claimC4_config_gate (allow deny : List String) (ac dl pv : Bool) (arc : String)
    (td : Date) (dest : List DirEntry) :
    compress ⟨allow, deny, ac, true, dl, pv, arc⟩ false td dest =
      ([Effect.createCacheFile (sessionInfo ⟨allow, deny, ac, true, dl, pv, arc⟩)], none) :=
  rfl

/-! ### Claim C1 -/

/-- Claim C1 is FALSE on the code: in preview mode `compress` still
creates the uniquely-named temporary file inside the destination
directory (line 295 runs before the preview branch at line 298) and, when
the config is required and present, it also rewrites the config cache
file under the destination; the claim (and the spec) say preview touches
nothing. -/
theorem claimC1_preview_creates_temp_file :
    (compress ⟨[], DEFAULT_DENYLIST, false, false, false, true, "2023-12-10-proj.zip"⟩ false
        ⟨2023, 12, 10⟩ []).1 = [Effect.createTempFile] ∧
    (compress ⟨[], DEFAULT_DENYLIST, false, true, false, true, "2023-12-10-proj.zip"⟩ true
        ⟨2023, 12, 10⟩ []).1 =
      [Effect.writeCacheFile (sessionInfo ⟨[], DEFAULT_DENYLIST, false, true, false, true,
        "2023-12-10-proj.zip"⟩), Effect.createTempFile] :=
  ⟨rfl, rfl⟩

/-! ### Claim C8 -/

/-- Claim C8 is FALSE on the code: the retention scan only guards against
names whose first 10 characters do not split into three dash-parts; a
`.zip` entry with three dash-parts that are non-numeric makes `int()`
raise, and an out-of-range month makes `datetime()` raise, so the scan
fails instead of skipping the entry.  On well-formed directories the scan
does select exactly the dated same-remainder `.zip` files. -/
theorem claimC8_scan_crashes_on_malformed_name :
    findFiles "2023-12-10-foo.zip" [⟨"2023-1x-05-foo.zip", false⟩] =
      .error "ValueError: int" ∧
    findFiles "2023-12-10-foo.zip" [⟨"2023-13-05-foo.zip", false⟩] =
      .error "ValueError: datetime" ∧
    findFiles "2023-12-10-foo.zip"
      [⟨"nodate-foo.zip", false⟩, ⟨"2023-11-02-foo.zip", false⟩,
       ⟨"2023-11-02-bar.zip", false⟩, ⟨"sub.zip", true⟩] =
      .ok [(⟨"2023-11-02-foo.zip", false⟩, ⟨2023, 11, 2⟩)] :=
  ⟨rfl, rfl, rfl⟩

/-! ### Claim C3 -/

/-- Claim C3 is FALSE on the code: loading an existing record RESETS the
denylist (`self.__denylist = set()`, line 97) before inserting the
record's entries, so the default-populated built-in denylist is dropped:
with an empty record denylist the built-in pattern `.vscode` is no longer
in the live deny set after construction. -/
theorem claimC3_cex_load_resets_denylist :
    (".vscode" ∈ DEFAULT_DENYLIST) ∧
    ¬ (".vscode" ∈ (initSession "proj" false none true true false false ⟨2023, 12, 10⟩
        (some ⟨[], [], none⟩)).deny) := by
  constructor
  · decide
  · decide

/-- Amended C3: when the require-config flag is set and a record exists,
the session's deny set after construction consists exactly of the
record's denylist entries (the built-in default denylist is used only
when no record is loaded), and the allow set consists exactly of the
record's allowlist entries. -/
theorem claimC3_amended_record_replaces_filters (tn : String) (tif : Bool) (aa : Option String)
    (ac dl pv : Bool) (td : Date) (al de : List String) (ob : Option Bool) :
    (∀ p, p ∈ (initSession tn tif aa ac true dl pv td (some ⟨al, de, ob⟩)).deny ↔ p ∈ de) ∧
    (∀ p, p ∈ (initSession tn tif aa ac true dl pv td (some ⟨al, de, ob⟩)).allow ↔ p ∈ al) := by
  have hd : (initSession tn tif aa ac true dl pv td (some ⟨al, de, ob⟩)).deny =
      updatePats [] de := rfl
  have ha : (initSession tn tif aa ac true dl pv td (some ⟨al, de, ob⟩)).allow =
      updatePats [] al := rfl
  rw [hd, ha]
  constructor <;> intro p <;> rw [mem_updatePats] <;> simp

/-! ### Claim C10 -/

/-- Claim C10 is FALSE as stated: the config record is only loaded (and
only written) when the require-config flag is set.  With the flag unset,
a construction against an existing record keeps the constructor's
`auto_clean` argument (here `true`, although the record stores `false`),
and a successful `compress` writes no config record at all. -/
theorem claimC10_cex_record_ignored_without_config_flag :
    (initSession "proj" false none true false false false ⟨2023, 12, 10⟩
        (some ⟨[], [], some false⟩)).auto_clean = true ∧
    (compress ⟨[], DEFAULT_DENYLIST, false, false, false, false, "proj.zip"⟩ true
        ⟨2023, 12, 10⟩ []).1 =
      [Effect.createTempFile, Effect.publishArchive "proj.zip"] :=
  ⟨rfl, rfl⟩

/-- Amended C10: for require-config sessions the `auto_clean` flag is part
of the persisted settings bag: every `compress` run writes a config
record whose `auto_clean` equals the session's current value, and a
construction with the require-config flag set against an existing record
containing an `auto_clean` key adopts the record's stored value,
replacing the constructor argument. -/
theorem claimC10_amended_auto_clean_in_settings_bag :
    (∀ (tn : String) (tif : Bool) (aa : Option String) (ac dl pv : Bool) (td : Date)
        (al de : List String) (b : Bool),
      (initSession tn tif aa ac true dl pv td (some ⟨al, de, some b⟩)).auto_clean = b) ∧
    (∀ (allow deny : List String) (ac dl pv : Bool) (arc : String) (ce : Bool) (td : Date)
        (dest : List DirEntry),
      ∃ r, (Effect.createCacheFile r ∈ (compress ⟨allow, deny, ac, true, dl, pv, arc⟩ ce td dest).1 ∨
            Effect.writeCacheFile r ∈ (compress ⟨allow, deny, ac, true, dl, pv, arc⟩ ce td dest).1) ∧
        r.auto_clean = some ac) := by
  constructor
  · intro tn tif aa ac dl pv td al de b
    rfl
  · intro allow deny ac dl pv arc ce td dest
    refine ⟨sessionInfo ⟨allow, deny, ac, true, dl, pv, arc⟩, ?_, rfl⟩
    cases ce
    · left
      exact List.mem_cons_self _ _
    · right
      cases pv
      · cases ac
        · exact List.mem_cons_self _ _
        · rcases hrun : autoCleanRun dl td arc dest with msg | pr
          · simp [compress, hrun]
          · simp [compress, hrun]
      · exact List.mem_cons_self _ _

/-! ### Evaluation lemmas for the retention pass -/

theorem autoCleanRun_eval_err (today : Date) (arc : String) (s : List DirEntry)
    (msg : String) (hff : findFiles arc s = .error msg) :
    autoCleanRun false today arc s = .error msg := by
  simp only [autoCleanRun, autoCleanDeleted, hff, Bool.false_eq_true, if_false]

theorem autoCleanRun_eval_small (today : Date) (arc : String) (s : List DirEntry)
    (all : List (DirEntry × Date)) (hff : findFiles arc s = .ok all)
    (hlen : (all.filter fun p => isCandidate today p.2).length < 2) :
    autoCleanRun false today arc s = .ok ([], s) := by
  simp only [autoCleanRun, autoCleanDeleted, hff, Bool.false_eq_true, if_false]
  rw [if_pos hlen]
  simp

theorem autoCleanRun_eval_main (today : Date) (arc : String) (s : List DirEntry)
    (all : List (DirEntry × Date)) (r : DirEntry × Date) (l : List (DirEntry × Date))
    (hff : findFiles arc s = .ok all)
    (hsort : sortByDate (all.filter fun p => isCandidate today p.2) = r :: l)
    (hlen : ¬ (all.filter fun p => isCandidate today p.2).length < 2) :
    autoCleanRun false today arc s =
      .ok (walkDel r.2 l,
        s.filter fun e => !(((walkDel r.2 l).map fun p => p.1.name).contains e.name)) := by
  simp only [autoCleanRun, autoCleanDeleted, hff, Bool.false_eq_true, if_false]
  rw [if_neg hlen, hsort]

/-! ### Claim C9 -/

/-- Claim C9: retention is idempotent.  For every destination-directory
state (directory listings have pairwise-distinct names) and fixed current
date, if `auto_clean` ran once producing the remaining state `rem`, then
running it again on `rem` deletes nothing. -/
theorem claimC9_retention_idempotent (dl : Bool) (today : Date) (arc : String)
    (s : List DirEntry) (hnd : (s.map DirEntry.name).Nodup)
    (del : List (DirEntry × Date)) (rem : List DirEntry)
    (hrun : autoCleanRun dl today arc s = .ok (del, rem)) :
    autoCleanRun dl today arc rem = .ok ([], rem) := by
  cases dl
  case true =>
    have h1 : (Except.ok (([] : List (DirEntry × Date)), s) :
        Except String (List (DirEntry × Date) × List DirEntry)) = .ok (del, rem) := hrun
    simp only [Except.ok.injEq, Prod.mk.injEq] at h1
    rw [← h1.2]
    rfl
  case false =>
    cases hff : findFiles arc s with
    | error msg =>
      rw [autoCleanRun_eval_err today arc s msg hff] at hrun
      exact absurd hrun (by simp)
    | ok all =>
      by_cases hlen : (all.filter fun p => isCandidate today p.2).length < 2
      · have he := autoCleanRun_eval_small today arc s all hff hlen
        rw [he] at hrun
        simp only [Except.ok.injEq, Prod.mk.injEq] at hrun
        rw [← hrun.2]
        exact he
      · cases hsort : sortByDate (all.filter fun p => isCandidate today p.2) with
        | nil =>
          exfalso
          have hp := sortByDate_perm (all.filter fun p => isCandidate today p.2)
          rw [hsort] at hp
          have hl0 := hp.length_eq
          simp only [List.length_nil] at hl0
          omega
        | cons r l =>
          have he := autoCleanRun_eval_main today arc s all r l hff hsort hlen
          rw [he] at hrun
          simp only [Except.ok.injEq, Prod.mk.injEq] at hrun
          obtain ⟨hdel, hrem⟩ := hrun
          subst hdel
          subst hrem
          have hperm := sortByDate_perm (all.filter fun p => isCandidate today p.2)
          rw [hsort] at hperm
          have hsorted : List.Pairwise (fun a b => dateKey b.2 ≤ dateKey a.2) (r :: l) := by
            have hx := sortByDate_sorted (all.filter fun p => isCandidate today p.2)
            rw [hsort] at hx
            exact hx
          have hvalid : ∀ p ∈ r :: l, validDate p.2 := by
            intro p hp
            have h1 : p ∈ all.filter fun pp => isCandidate today pp.2 := hperm.mem_iff.1 hp
            exact (findFiles_sound hff p (List.mem_filter.1 h1).1).2
          have hkpw := walkKeep_pairwise r l hvalid hsorted
          have hff₂ := findFiles_filter
            (fun e => !(((walkDel r.2 l).map fun p => p.1.name).contains e.name)) hff
          have hcomm : ((all.filter fun p =>
                !(((walkDel r.2 l).map fun pp => pp.1.name).contains p.1.name)).filter
                  fun p => isCandidate today p.2) =
              ((all.filter fun p => isCandidate today p.2).filter fun p =>
                !(((walkDel r.2 l).map fun pp => pp.1.name).contains p.1.name)) := by
            rw [List.filter_filter, List.filter_filter]
            exact List.filter_congr (fun a _ => Bool.and_comm _ _)
          have hsubkept : ∀ p ∈ ((all.filter fun pp => isCandidate today pp.2).filter
                fun pp => !(((walkDel r.2 l).map fun x => x.1.name).contains pp.1.name)),
              p ∈ r :: walkKeep r.2 l := by
            intro p hp
            rcases List.mem_filter.1 hp with ⟨hpf, hpq⟩
            have hps : p ∈ r :: l := hperm.mem_iff.2 hpf
            rcases List.mem_cons.1 hps with hpr | hpl
            · rw [hpr]
              exact List.mem_cons_self _ _
            · have hmm := (walk_partition r.2 l).mem_iff.1 hpl
              rcases List.mem_append.1 hmm with hk | hd
              · exact List.mem_cons_of_mem _ hk
              · exfalso
                have hmn : p.1.name ∈ (walkDel r.2 l).map fun x => x.1.name :=
                  List.mem_map.2 ⟨p, hd, rfl⟩
                rw [← contains_iff_mem_str] at hmn
                rw [hmn] at hpq
                simp at hpq
          have hnall : (all.map fun p => p.1.name).Nodup := by
            have s4 := findFiles_fst_sublist hff
            have s5 := List.Sublist.map DirEntry.name s4
            rw [List.map_map] at s5
            exact List.Nodup.sublist s5 hnd
          have hnames : ((((all.filter fun pp => isCandidate today pp.2).filter
                fun pp => !(((walkDel r.2 l).map fun x => x.1.name).contains pp.1.name))).map
                  fun p => p.1.name).Nodup := by
            have s1 : List.Sublist ((all.filter fun pp => isCandidate today pp.2).filter
                fun pp => !(((walkDel r.2 l).map fun x => x.1.name).contains pp.1.name)) all :=
              (List.filter_sublist _).trans (List.filter_sublist _)
            exact List.Nodup.sublist (List.Sublist.map _ s1) hnall
          have hpw2 := pairwise_of_sub_nodup _ _ hsubkept hkpw hnames
          by_cases hlen₂ : ((all.filter fun p =>
              !(((walkDel r.2 l).map fun pp => pp.1.name).contains p.1.name)).filter
                fun p => isCandidate today p.2).length < 2
          · exact autoCleanRun_eval_small today arc _ _ hff₂ hlen₂
          · cases hsort₂ : sortByDate ((all.filter fun p =>
                !(((walkDel r.2 l).map fun pp => pp.1.name).contains p.1.name)).filter
                  fun p => isCandidate today p.2) with
            | nil =>
              exfalso
              have hp2 := sortByDate_perm ((all.filter fun p =>
                !(((walkDel r.2 l).map fun pp => pp.1.name).contains p.1.name)).filter
                  fun p => isCandidate today p.2)
              rw [hsort₂] at hp2
              have hl0 := hp2.length_eq
              simp only [List.length_nil] at hl0
              omega
            | cons r₂ l₂ =>
              have he₂ := autoCleanRun_eval_main today arc _ _ r₂ l₂ hff₂ hsort₂ hlen₂
              have hpair₂ : List.Pairwise (fun a b => ymEq b.2 a.2 = false) (r₂ :: l₂) := by
                have hp2 := sortByDate_perm ((all.filter fun p =>
                  !(((walkDel r.2 l).map fun pp => pp.1.name).contains p.1.name)).filter
                    fun p => isCandidate today p.2)
                rw [hsort₂] at hp2
                refine (List.Perm.pairwise_iff ?_ hp2).2 ?_
                · intro x y hxy
                  rw [ymEq_comm]
                  exact hxy
                · rw [hcomm]
                  exact hpw2
              have hwd : walkDel r₂.2 l₂ = [] :=
                walkDel_eq_nil r₂.2 l₂ (fun p hp => (List.pairwise_cons.1 hpair₂).1 p hp)
                  (List.pairwise_cons.1 hpair₂).2
              rw [hwd] at he₂
              have hfe : ((s.filter fun e =>
                    !(((walkDel r.2 l).map fun p => p.1.name).contains e.name)).filter
                      fun e => !((([] : List (DirEntry × Date)).map
                        fun p => p.1.name).contains e.name)) =
                  (s.filter fun e =>
                    !(((walkDel r.2 l).map fun p => p.1.name).contains e.name)) := by
                simp
              rw [hfe] at he₂
              exact he₂

/-- Witness for C9 at a concrete destination directory: the first run
deletes exactly the superseded October backup, the second run deletes
nothing. -/
theorem claimC9_witness :
    ((([⟨"2023-10-03-bar.zip", false⟩, ⟨"2023-10-21-bar.zip", false⟩,
        ⟨"2023-11-06-bar.zip", false⟩] : List DirEntry).map DirEntry.name).Nodup) ∧
    autoCleanRun false ⟨2023, 11, 15⟩ "2023-11-15-bar.zip"
        [⟨"2023-10-03-bar.zip", false⟩, ⟨"2023-10-21-bar.zip", false⟩,
         ⟨"2023-11-06-bar.zip", false⟩] =
      .ok ([(⟨"2023-10-03-bar.zip", false⟩, ⟨2023, 10, 3⟩)],
        [⟨"2023-10-21-bar.zip", false⟩, ⟨"2023-11-06-bar.zip", false⟩]) ∧
    autoCleanRun false ⟨2023, 11, 15⟩ "2023-11-15-bar.zip"
        [⟨"2023-10-21-bar.zip", false⟩, ⟨"2023-11-06-bar.zip", false⟩] =
      .ok ([], [⟨"2023-10-21-bar.zip", false⟩, ⟨"2023-11-06-bar.zip", false⟩]) :=
  ⟨by decide, rfl,
    claimC9_retention_idempotent false ⟨2023, 11, 15⟩ "2023-11-15-bar.zip"
      [⟨"2023-10-03-bar.zip", false⟩, ⟨"2023-10-21-bar.zip", false⟩,
       ⟨"2023-11-06-bar.zip", false⟩] (by decide)
      [(⟨"2023-10-03-bar.zip", false⟩, ⟨2023, 10, 3⟩)]
      [⟨"2023-10-21-bar.zip", false⟩, ⟨"2023-11-06-bar.zip", false⟩] rfl⟩

/-! ### Claim C2 -/

/-- Claim C2 is FALSE as stated: the candidate test is the disjunction
`year < today.year or month < today.month` (backup.py line 259), not a
chronological (year, month) comparison.  A backup dated 2025-01-05 —
chronologically AFTER "today" 2024-02-10 — is treated as a candidate
(2025 < 2024 is false, but 1 < 2 holds) and deleted as the non-latest
entry of month 2025-01. -/
theorem claimC2_cex_future_backup_deleted :
    autoCleanRun false ⟨2024, 2, 10⟩ "2024-02-10-foo.zip"
        [⟨"2025-01-20-foo.zip", false⟩, ⟨"2025-01-05-foo.zip", false⟩] =
      .ok ([(⟨"2025-01-05-foo.zip", false⟩, ⟨2025, 1, 5⟩)],
        [⟨"2025-01-20-foo.zip", false⟩]) ∧
    ¬ ymBefore ⟨2025, 1, 5⟩ ⟨2024, 2, 10⟩ :=
  ⟨rfl, by decide⟩

/-- Amended C2: a matching dated backup is a deletion candidate iff its
year is less than the current year OR its month number is less than the
current month number (the code's literal disjunctive test, not a
chronological comparison), and — when the candidate dates are pairwise
distinct — auto_clean deletes exactly the candidates that are not the
chronologically latest backup of their own (year, month); backups of the
current year and month are never candidates, hence never deleted. -/
theorem claimC2_amended_retention_rule (today : Date) (arc : String) (s : List DirEntry)
    (all del : List (DirEntry × Date)) (rem : List DirEntry)
    (hff : findFiles arc s = .ok all)
    (hnk : ((all.filter fun p => isCandidate today p.2).map fun p => dateKey p.2).Nodup)
    (hrun : autoCleanRun false today arc s = .ok (del, rem)) :
    ∀ p ∈ all,
      (isCandidate today p.2 = true ↔ (p.2.year < today.year ∨ p.2.month < today.month)) ∧
      (p ∈ del ↔ (isCandidate today p.2 = true ∧
        ∃ q ∈ all, isCandidate today q.2 = true ∧ ymEq q.2 p.2 = true ∧
          dateKey p.2 < dateKey q.2)) := by
  intro p hpall
  refine ⟨by simp [isCandidate], ?_⟩
  by_cases hlen : (all.filter fun x => isCandidate today x.2).length < 2
  · have he := autoCleanRun_eval_small today arc s all hff hlen
    rw [he] at hrun
    simp only [Except.ok.injEq, Prod.mk.injEq] at hrun
    obtain ⟨hdel, _⟩ := hrun
    subst hdel
    constructor
    · intro hpd
      simp at hpd
    · rintro ⟨hc, q, hqa, hqc, hym, hkl⟩
      exfalso
      have hpf : p ∈ all.filter fun x => isCandidate today x.2 :=
        List.mem_filter.2 ⟨hpall, hc⟩
      have hqf : q ∈ all.filter fun x => isCandidate today x.2 :=
        List.mem_filter.2 ⟨hqa, hqc⟩
      have hne : p ≠ q := by
        intro he2
        rw [he2] at hkl
        omega
      rcases hfl : all.filter fun x => isCandidate today x.2 with _ | ⟨a, _ | ⟨b, t⟩⟩
      · rw [hfl] at hpf
        simp at hpf
      · rw [hfl] at hpf hqf
        simp only [List.mem_singleton] at hpf hqf
        exact hne (hpf.trans hqf.symm)
      · rw [hfl] at hlen
        simp only [List.length_cons] at hlen
        omega
  · cases hsort : sortByDate (all.filter fun x => isCandidate today x.2) with
    | nil =>
      exfalso
      have hp := sortByDate_perm (all.filter fun x => isCandidate today x.2)
      rw [hsort] at hp
      have hl0 := hp.length_eq
      simp only [List.length_nil] at hl0
      omega
    | cons r l =>
      have he := autoCleanRun_eval_main today arc s all r l hff hsort hlen
      rw [he] at hrun
      simp only [Except.ok.injEq, Prod.mk.injEq] at hrun
      obtain ⟨hdel, _⟩ := hrun
      subst hdel
      have hperm := sortByDate_perm (all.filter fun x => isCandidate today x.2)
      rw [hsort] at hperm
      have hsorted : List.Pairwise (fun a b => dateKey b.2 ≤ dateKey a.2) (r :: l) := by
        have hx := sortByDate_sorted (all.filter fun x => isCandidate today x.2)
        rw [hsort] at hx
        exact hx
      have hvalid : ∀ x ∈ r :: l, validDate x.2 := by
        intro x hx
        have h1 : x ∈ all.filter fun y => isCandidate today y.2 := hperm.mem_iff.1 hx
        exact (findFiles_sound hff x (List.mem_filter.1 h1).1).2
      have hnk' : ((r :: l).map fun x => dateKey x.2).Nodup := by
        have hmk := List.Perm.map (fun x => dateKey x.2) hperm
        exact (List.Perm.nodup_iff hmk).2 hnk
      constructor
      · intro hpd
        have hpl : p ∈ l := walkDel_sub r.2 l p hpd
        have hpf : p ∈ all.filter fun x => isCandidate today x.2 :=
          hperm.mem_iff.1 (List.mem_cons_of_mem _ hpl)
        have hpc := (List.mem_filter.1 hpf).2
        refine ⟨hpc, ?_⟩
        obtain ⟨q, hq, hym, hkl⟩ := walkDel_mem_later r l hsorted hnk' p hpd
        have hqf : q ∈ all.filter fun x => isCandidate today x.2 := hperm.mem_iff.1 hq
        rcases List.mem_filter.1 hqf with ⟨hqa, hqc⟩
        exact ⟨q, hqa, hqc, hym, hkl⟩
      · rintro ⟨hc, q, hqa, hqc, hym, hkl⟩
        have hpf : p ∈ all.filter fun x => isCandidate today x.2 :=
          List.mem_filter.2 ⟨hpall, hc⟩
        have hps : p ∈ r :: l := hperm.mem_iff.2 hpf
        have hqf : q ∈ all.filter fun x => isCandidate today x.2 :=
          List.mem_filter.2 ⟨hqa, hqc⟩
        have hqs : q ∈ r :: l := hperm.mem_iff.2 hqf
        by_contra hpd
        have hpk : p ∈ r :: walkKeep r.2 l := by
          rcases List.mem_cons.1 hps with hpr | hpl
          · rw [hpr]
            exact List.mem_cons_self _ _
          · rcases List.mem_append.1 ((walk_partition r.2 l).mem_iff.1 hpl) with hk | hd
            · exact List.mem_cons_of_mem _ hk
            · exact absurd hd hpd
        have hmax := walkKeep_max r l hvalid hsorted p hpk q hqs hym
        omega

/-- Witness for the amended C2 at the spec's own example: archives dated
2023-11-02, 2023-11-20, 2023-12-05 with "today" 2023-12-10; exactly
2023-11-02 is deleted, 2023-11-20 (latest November) and 2023-12-05
(current month) survive. -/
theorem claimC2_amended_witness :
    findFiles "2023-12-10-foo.zip"
        [⟨"2023-11-02-foo.zip", false⟩, ⟨"2023-11-20-foo.zip", false⟩,
         ⟨"2023-12-05-foo.zip", false⟩] =
      .ok [(⟨"2023-11-02-foo.zip", false⟩, ⟨2023, 11, 2⟩),
           (⟨"2023-11-20-foo.zip", false⟩, ⟨2023, 11, 20⟩),
           (⟨"2023-12-05-foo.zip", false⟩, ⟨2023, 12, 5⟩)] ∧
    ((([(⟨"2023-11-02-foo.zip", false⟩, ⟨2023, 11, 2⟩),
        (⟨"2023-11-20-foo.zip", false⟩, ⟨2023, 11, 20⟩),
        (⟨"2023-12-05-foo.zip", false⟩, ⟨2023, 12, 5⟩)] : List (DirEntry × Date)).filter
          fun p => isCandidate ⟨2023, 12, 10⟩ p.2).map fun p => dateKey p.2).Nodup ∧
    autoCleanRun false ⟨2023, 12, 10⟩ "2023-12-10-foo.zip"
        [⟨"2023-11-02-foo.zip", false⟩, ⟨"2023-11-20-foo.zip", false⟩,
         ⟨"2023-12-05-foo.zip", false⟩] =
      .ok ([(⟨"2023-11-02-foo.zip", false⟩, ⟨2023, 11, 2⟩)],
        [⟨"2023-11-20-foo.zip", false⟩, ⟨"2023-12-05-foo.zip", false⟩]) ∧
    (∀ p ∈ ([(⟨"2023-11-02-foo.zip", false⟩, ⟨2023, 11, 2⟩),
            (⟨"2023-11-20-foo.zip", false⟩, ⟨2023, 11, 20⟩),
            (⟨"2023-12-05-foo.zip", false⟩, ⟨2023, 12, 5⟩)] : List (DirEntry × Date)),
      (isCandidate ⟨2023, 12, 10⟩ p.2 = true ↔
        (p.2.year < (⟨2023, 12, 10⟩ : Date).year ∨
          p.2.month < (⟨2023, 12, 10⟩ : Date).month)) ∧
      (p ∈ ([(⟨"2023-11-02-foo.zip", false⟩, ⟨2023, 11, 2⟩)] : List (DirEntry × Date)) ↔
        (isCandidate ⟨2023, 12, 10⟩ p.2 = true ∧
          ∃ q ∈ ([(⟨"2023-11-02-foo.zip", false⟩, ⟨2023, 11, 2⟩),
                 (⟨"2023-11-20-foo.zip", false⟩, ⟨2023, 11, 20⟩),
                 (⟨"2023-12-05-foo.zip", false⟩, ⟨2023, 12, 5⟩)] : List (DirEntry × Date)),
            isCandidate ⟨2023, 12, 10⟩ q.2 = true ∧ ymEq q.2 p.2 = true ∧
              dateKey p.2 < dateKey q.2))) :=
  ⟨rfl, by decide, rfl,
    claimC2_amended_retention_rule ⟨2023, 12, 10⟩ "2023-12-10-foo.zip"
      [⟨"2023-11-02-foo.zip", false⟩, ⟨"2023-11-20-foo.zip", false⟩,
       ⟨"2023-12-05-foo.zip", false⟩]
      [(⟨"2023-11-02-foo.zip", false⟩, ⟨2023, 11, 2⟩),
       (⟨"2023-11-20-foo.zip", false⟩, ⟨2023, 11, 20⟩),
       (⟨"2023-12-05-foo.zip", false⟩, ⟨2023, 12, 5⟩)]
      [(⟨"2023-11-02-foo.zip", false⟩, ⟨2023, 11, 2⟩)]
      [⟨"2023-11-20-foo.zip", false⟩, ⟨"2023-12-05-foo.zip", false⟩]
      rfl (by decide) rfl⟩

end Backup
